import Mathlib

/-!
Shallow embedding of the Self-Optimizing-Ad-Campaign simulator
(`simulation.py`, `bandit.py`, `app.py`) and proofs about it.

Randomness is made explicit: every call of `np.random.beta` or
`np.random.binomial` in the Python code consumes one value from an oracle
passed in as a function argument (samples indexed by loop position, Bernoulli
outcomes indexed by step).  Python runtime failures (KeyError, indexing an
empty array, calling a method on None, `i % 0`) are modelled as explicit
`Except` error values.
-/

set_option autoImplicit false

namespace AdCampaign

/-- One ad creative with a hidden true click-through rate
(`simulation.py`, class `AdCreative`).  The hidden rate only parameterizes
the Bernoulli outcome distribution; it is never read by the bandit policy. -/
structure AdCreative where
  creative_id : ℕ
  true_ctr : ℚ
deriving DecidableEq

/-- Per-arm belief parameters `{'alpha': ..., 'beta': ...}` stored in
`ThompsonSamplingBandit.ad_stats` (`bandit.py`). -/
structure Stats where
  alpha : ℕ
  beta : ℕ
deriving DecidableEq

/-- Runtime failures of the Python code, modelled as explicit error values:
`keyError` for a dict access with a missing key, `noneTypeError` for calling a
method on `None`, `zeroDivisionError` for `i % 0`, `indexError` for taking the
final element of an empty mean series.  `configurationError` is the error kind
named by the spec; it is listed here so that claims about it can be stated,
but no code path constructs it. -/
inductive SimError where
  | keyError
  | noneTypeError
  | zeroDivisionError
  | indexError
  | configurationError
deriving DecidableEq

/-- Association-list model of a Python dict keyed by creative id: lookup
returns the value of the first matching entry. -/
def dictGet {α : Type} : List (ℕ × α) → ℕ → Option α
  | [], _ => none
  | (k, v) :: rest, key => if k = key then some v else dictGet rest key

/-- State of `ThompsonSamplingBandit` (`bandit.py`): the registry of
creatives and the per-arm Beta parameters. -/
structure ThompsonSamplingBandit where
  creatives : List AdCreative
  ad_stats : List (ℕ × Stats)
deriving DecidableEq

/-- Construction of a `ThompsonSamplingBandit`: one `{'alpha': 1, 'beta': 1}`
entry per creative (uniform prior). -/
def initBandit (creatives : List AdCreative) : ThompsonSamplingBandit :=
  { creatives := creatives
    ad_stats := creatives.map fun ad => (ad.creative_id, ⟨1, 1⟩) }

/-- The belief parameters the policy currently holds for `ad_id`
(`self.ad_stats[ad_id]`, as a lookup). -/
def lookupStats (b : ThompsonSamplingBandit) (ad_id : ℕ) : Option Stats :=
  dictGet b.ad_stats ad_id

/-- `self.ad_stats[ad_id]['alpha'] += 1` on the first matching entry. -/
def bumpAlpha : List (ℕ × Stats) → ℕ → List (ℕ × Stats)
  | [], _ => []
  | (k, s) :: rest, ad_id =>
    if k = ad_id then (k, { s with alpha := s.alpha + 1 }) :: rest
    else (k, s) :: bumpAlpha rest ad_id

/-- `self.ad_stats[ad_id]['beta'] += 1` on the first matching entry. -/
def bumpBeta : List (ℕ × Stats) → ℕ → List (ℕ × Stats)
  | [], _ => []
  | (k, s) :: rest, ad_id =>
    if k = ad_id then (k, { s with beta := s.beta + 1 }) :: rest
    else (k, s) :: bumpBeta rest ad_id

/-- `ThompsonSamplingBandit.update(ad_id, was_clicked)`: increment alpha when
`was_clicked == 1`, otherwise increment beta.  Accessing
`self.ad_stats[ad_id]` raises KeyError when `ad_id` is not a key, before any
mutation happens. -/
def update (b : ThompsonSamplingBandit) (ad_id : ℕ) (was_clicked : ℕ) :
    Except SimError ThompsonSamplingBandit :=
  match dictGet b.ad_stats ad_id with
  | none => .error .keyError
  | some _ =>
    if was_clicked = 1 then
      .ok { b with ad_stats := bumpAlpha b.ad_stats ad_id }
    else
      .ok { b with ad_stats := bumpBeta b.ad_stats ad_id }

/-- The loop body of `ThompsonSamplingBandit.select_ad`: iterate over the
creatives, drawing one Beta sample per creative (oracle `samples`, indexed
by loop position), keeping the creative whose sample strictly exceeds the
running maximum.  `best_ad` starts as `None` and `max_sample` as `-1`. -/
def selectLoop (samples : ℕ → ℚ) :
    List AdCreative → ℕ → Option AdCreative → ℚ → Option AdCreative
  | [], _, best_ad, _ => best_ad
  | ad :: rest, i, best_ad, max_sample =>
    let sampled_ctr := samples i
    if max_sample < sampled_ctr then selectLoop samples rest (i + 1) (some ad) sampled_ctr
    else selectLoop samples rest (i + 1) best_ad max_sample

/-- `ThompsonSamplingBandit.select_ad`: run the selection loop over the
registry starting from `best_ad = None`, `max_sample = -1`.  The Beta
parameters read inside the loop only shape the distribution of the oracle's
samples, so they do not appear in the deterministic data flow. -/
def select_ad (b : ThompsonSamplingBandit) (samples : ℕ → ℚ) : Option AdCreative :=
  selectLoop samples b.creatives 0 none (-1)

/-- `dict[key] += amount` for the impression/click counter dicts: fails with
KeyError when the key is absent, otherwise bumps the first matching entry. -/
def incrEntry : List (ℕ × ℕ) → ℕ → ℕ → Except SimError (List (ℕ × ℕ))
  | [], _, _ => .error .keyError
  | (k, v) :: rest, key, amount =>
    if k = key then .ok ((k, v + amount) :: rest)
    else (incrEntry rest key amount).map (fun r => (k, v) :: r)

/-- `sum(d.values())` for a counter dict. -/
def sumValues (l : List (ℕ × ℕ)) : ℕ := (l.map Prod.snd).sum

/-- `{ad.creative_id: 0 for ad in creatives}`. -/
def initCounts (creatives : List AdCreative) : List (ℕ × ℕ) :=
  creatives.map fun ad => (ad.creative_id, 0)

/-- The A/B branch's arm choice `creatives[i % num_creatives_env]`
(`app.py`, `run_simulation`): within Python this raises ZeroDivisionError on
an empty registry, so the empty case yields no creative. -/
def abSelect (creatives : List AdCreative) (i : ℕ) : Option AdCreative :=
  if h : creatives.length = 0 then none
  else some (creatives.get ⟨i % creatives.length, Nat.mod_lt i (Nat.pos_of_ne_zero h)⟩)

/-- The mutable locals of one `run_simulation` call. -/
structure RunState where
  bandit : ThompsonSamplingBandit
  bandit_impressions : List (ℕ × ℕ)
  bandit_clicks : List (ℕ × ℕ)
  bandit_history : List ℕ
  ab_impressions : List (ℕ × ℕ)
  ab_clicks : List (ℕ × ℕ)
  ab_history : List ℕ
deriving DecidableEq

/-- The state of `run_simulation` just before its main loop. -/
def initRunState (creatives : List AdCreative) : RunState :=
  { bandit := initBandit creatives
    bandit_impressions := initCounts creatives
    bandit_clicks := initCounts creatives
    bandit_history := []
    ab_impressions := initCounts creatives
    ab_clicks := initCounts creatives
    ab_history := [] }

/-- One iteration of the `run_simulation` loop at step `i`: the bandit branch
(select, observe, update, count, append cumulative clicks) followed by the
round-robin A/B branch.  `samples i` is the Beta-sample oracle for step `i`;
`rB i` / `rA i` are the Bernoulli outcomes of the two independent
`show_ad()` calls at step `i`. -/
def simStep (creatives : List AdCreative) (samples : ℕ → ℕ → ℚ) (rB rA : ℕ → Bool)
    (st : RunState) (i : ℕ) : Except SimError RunState :=
  match select_ad st.bandit (samples i) with
  | none => .error .noneTypeError
  | some chosen_ad =>
    let reward_bandit : ℕ := if rB i then 1 else 0
    match update st.bandit chosen_ad.creative_id reward_bandit with
    | .error e => .error e
    | .ok bandit2 =>
      match incrEntry st.bandit_impressions chosen_ad.creative_id 1 with
      | .error e => .error e
      | .ok bi =>
        match incrEntry st.bandit_clicks chosen_ad.creative_id reward_bandit with
        | .error e => .error e
        | .ok bc =>
          match abSelect creatives i with
          | none => .error .zeroDivisionError
          | some ad_to_show_ab =>
            let reward_ab : ℕ := if rA i then 1 else 0
            match incrEntry st.ab_impressions ad_to_show_ab.creative_id 1 with
            | .error e => .error e
            | .ok ai =>
              match incrEntry st.ab_clicks ad_to_show_ab.creative_id reward_ab with
              | .error e => .error e
              | .ok ac =>
                .ok { bandit := bandit2
                      bandit_impressions := bi
                      bandit_clicks := bc
                      bandit_history := st.bandit_history ++ [sumValues bc]
                      ab_impressions := ai
                      ab_clicks := ac
                      ab_history := st.ab_history ++ [sumValues ac] }

/-- The main loop of `run_simulation`: `n` remaining steps, current step
index `i`. -/
def simLoop (creatives : List AdCreative) (samples : ℕ → ℕ → ℚ) (rB rA : ℕ → Bool) :
    ℕ → ℕ → RunState → Except SimError RunState
  | 0, _, st => .ok st
  | n + 1, i, st =>
    match simStep creatives samples rB rA st i with
    | .error e => .error e
    | .ok st2 => simLoop creatives samples rB rA n (i + 1) st2

/-- The record returned by `run_simulation`. -/
structure RunResult where
  bandit_impressions : List (ℕ × ℕ)
  bandit_clicks : List (ℕ × ℕ)
  bandit_history : List ℕ
  ab_impressions : List (ℕ × ℕ)
  ab_clicks : List (ℕ × ℕ)
  ab_history : List ℕ
deriving DecidableEq

/-- `run_simulation(creatives, total_impressions)` (`app.py`): fresh bandit
and counters, then `total_impressions` loop iterations starting at step 0. -/
def run_simulation (creatives : List AdCreative) (samples : ℕ → ℕ → ℚ)
    (rB rA : ℕ → Bool) (total_impressions : ℕ) : Except SimError RunResult :=
  match simLoop creatives samples rB rA total_impressions 0 (initRunState creatives) with
  | .error e => .error e
  | .ok st =>
    .ok { bandit_impressions := st.bandit_impressions
          bandit_clicks := st.bandit_clicks
          bandit_history := st.bandit_history
          ab_impressions := st.ab_impressions
          ab_clicks := st.ab_clicks
          ab_history := st.ab_history }

/-- The multi-simulation loop (`app.py`, "Run Multiple Simulations"): `n`
remaining runs, current run index `r`.  Each run rebuilds the creatives from
the config and calls `run_simulation`; oracles take the run index first. -/
def runsLoop (creatives_config : List AdCreative) (samples : ℕ → ℕ → ℕ → ℚ)
    (rB rA : ℕ → ℕ → Bool) (total_impressions : ℕ) :
    ℕ → ℕ → Except SimError (List RunResult)
  | 0, _ => .ok []
  | n + 1, r =>
    match run_simulation creatives_config (samples r) (rB r) (rA r) total_impressions with
    | .error e => .error e
    | .ok res =>
      (runsLoop creatives_config samples rB rA total_impressions n (r + 1)).map
        (fun rest => res :: rest)

/-- `np.mean(histories, axis=0)`: elementwise arithmetic mean of the stacked
cumulative-click rows.  The row length comes from the stacked array's shape,
i.e. from the first row; an empty stack collapses (numpy yields a scalar
`nan`), modelled as the empty series. -/
def meanSeries (hists : List (List ℕ)) : List ℚ :=
  match hists with
  | [] => []
  | h :: _ =>
    (List.range h.length).map fun j =>
      ((hists.map fun hh => ((hh.getD j 0 : ℕ) : ℚ)).sum) / (hists.length : ℚ)

/-- The square of `np.std(histories, axis=0)`: the elementwise population
variance.  `np.std` is its pointwise square root, so the std series is
identically zero exactly when this series is. -/
def varSeries (hists : List (List ℕ)) : List ℚ :=
  match hists with
  | [] => []
  | h :: _ =>
    (List.range h.length).map fun j =>
      let m := ((hists.map fun hh => ((hh.getD j 0 : ℕ) : ℚ)).sum) / (hists.length : ℚ)
      ((hists.map fun hh => (((hh.getD j 0 : ℕ) : ℚ) - m) ^ 2).sum) / (hists.length : ℚ)

/-- The aggregated statistics computed after the multi-simulation loop
(`app.py`): mean and (squared) std series per strategy, the mean final
cumulative clicks `mean_hist[-1]`, the average CTRs, and the uplift. -/
structure AggregateResult where
  mean_bandit_clicks_hist : List ℚ
  var_bandit_clicks_hist : List ℚ
  mean_ab_clicks_hist : List ℚ
  var_ab_clicks_hist : List ℚ
  avg_total_bandit_clicks : ℚ
  avg_total_ab_clicks : ℚ
  avg_bandit_ctr : ℚ
  avg_ab_ctr : ℚ
  uplift_percentage : ℚ
deriving DecidableEq

/-- The whole multi-run aggregation block of `app.py`: run `num_runs`
simulations, stack the cumulative-click histories, take elementwise mean and
std, then read `[-1]` of each mean series (IndexError when it is empty) and
derive CTRs and uplift (`0` unless `avg_total_ab_clicks > 0`). -/
def aggregate (creatives_config : List AdCreative) (samples : ℕ → ℕ → ℕ → ℚ)
    (rB rA : ℕ → ℕ → Bool) (total_impressions num_runs : ℕ) :
    Except SimError AggregateResult :=
  match runsLoop creatives_config samples rB rA total_impressions num_runs 0 with
  | .error e => .error e
  | .ok results =>
    let banditHists := results.map (fun res => res.bandit_history)
    let abHists := results.map (fun res => res.ab_history)
    let mb := meanSeries banditHists
    let vb := varSeries banditHists
    let ma := meanSeries abHists
    let va := varSeries abHists
    match mb.getLast?, ma.getLast? with
    | some avgB, some avgA =>
      .ok { mean_bandit_clicks_hist := mb
            var_bandit_clicks_hist := vb
            mean_ab_clicks_hist := ma
            var_ab_clicks_hist := va
            avg_total_bandit_clicks := avgB
            avg_total_ab_clicks := avgA
            avg_bandit_ctr := avgB / (total_impressions : ℚ)
            avg_ab_ctr := avgA / (total_impressions : ℚ)
            uplift_percentage := if 0 < avgA then (avgB - avgA) / avgA * 100 else 0 }
    | _, _ => .error .indexError

/-- The three ad creatives configured in `app.py` (`creatives_config`). -/
def appCreatives : List AdCreative :=
  [⟨1, 15/1000⟩, ⟨2, 21/1000⟩, ⟨3, 18/1000⟩]

/-- `cumulFromB prev l` holds when every element of `l` equals its
predecessor (`prev` before the first element) or that predecessor plus one:
the shape of a cumulative 0/1-increment series. -/
def cumulFromB (prev : ℕ) : List ℕ → Bool
  | [] => true
  | x :: rest => (decide (x = prev) || decide (x = prev + 1)) && cumulFromB x rest

/-- The last element of a list, with fallback `d` for the empty list
(the running cumulative total before any step is 0). -/
def lastD (l : List ℕ) (d : ℕ) : ℕ :=
  match l with
  | [] => d
  | x :: rest => lastD rest x

/-- Loop invariant of the `run_simulation` main loop after `i` completed
steps; it carries everything needed to show the next step succeeds and to
read off the claims about the final `RunResult`. -/
def SimInv (creatives : List AdCreative) (i : ℕ) (st : RunState) : Prop :=
  st.bandit.creatives = creatives ∧
  (∀ ad ∈ creatives, (lookupStats st.bandit ad.creative_id).isSome) ∧
  (∀ ad ∈ creatives, (dictGet st.bandit_impressions ad.creative_id).isSome) ∧
  (∀ ad ∈ creatives, (dictGet st.bandit_clicks ad.creative_id).isSome) ∧
  (∀ ad ∈ creatives, (dictGet st.ab_impressions ad.creative_id).isSome) ∧
  (∀ ad ∈ creatives, (dictGet st.ab_clicks ad.creative_id).isSome) ∧
  st.bandit_history.length = i ∧
  st.ab_history.length = i ∧
  sumValues st.bandit_impressions = i ∧
  sumValues st.ab_impressions = i ∧
  cumulFromB 0 st.bandit_history = true ∧
  cumulFromB 0 st.ab_history = true ∧
  lastD st.bandit_history 0 = sumValues st.bandit_clicks ∧
  lastD st.ab_history 0 = sumValues st.ab_clicks

/-- Bandit-policy states reachable by the code: a freshly constructed bandit,
or the successful result of an `update` call on a reachable state. -/
inductive Reachable : ThompsonSamplingBandit → Prop where
  | init (creatives : List AdCreative) : Reachable (initBandit creatives)
  | step (b b2 : ThompsonSamplingBandit) (ad_id was_clicked : ℕ) :
      Reachable b → update b ad_id was_clicked = .ok b2 → Reachable b2

/-! ### Lemmas about the belief-state dictionary -/

theorem dictGet_bumpAlpha (l : List (ℕ × Stats)) (id k : ℕ) :
    dictGet (bumpAlpha l id) k =
      if k = id then (dictGet l k).map (fun s => { s with alpha := s.alpha + 1 })
      else dictGet l k := by
  induction l with
  | nil => simp [bumpAlpha, dictGet]
  | cons p rest ih =>
    obtain ⟨k1, s⟩ := p
    by_cases h1 : k1 = id <;> by_cases h2 : k1 = k <;> by_cases h3 : k = id <;>
      simp_all [bumpAlpha, dictGet]

theorem dictGet_bumpBeta (l : List (ℕ × Stats)) (id k : ℕ) :
    dictGet (bumpBeta l id) k =
      if k = id then (dictGet l k).map (fun s => { s with beta := s.beta + 1 })
      else dictGet l k := by
  induction l with
  | nil => simp [bumpBeta, dictGet]
  | cons p rest ih =>
    obtain ⟨k1, s⟩ := p
    by_cases h1 : k1 = id <;> by_cases h2 : k1 = k <;> by_cases h3 : k = id <;>
      simp_all [bumpBeta, dictGet]

theorem dictGet_map_const (creatives : List AdCreative) (v : Stats) (k : ℕ) (s : Stats)
    (h : dictGet (creatives.map fun ad => (ad.creative_id, v)) k = some s) : s = v := by
  induction creatives with
  | nil => simp [dictGet] at h
  | cons ad rest ih =>
    simp only [List.map_cons, dictGet] at h
    by_cases h1 : ad.creative_id = k
    · simp [h1] at h; exact h.symm
    · simp [h1] at h; exact ih h

theorem update_ok_stats (b b2 : ThompsonSamplingBandit) (ad_id w : ℕ)
    (h : update b ad_id w = .ok b2) (k : ℕ) :
    lookupStats b2 k =
      if k = ad_id then
        (lookupStats b k).map (fun s =>
          if w = 1 then { s with alpha := s.alpha + 1 } else { s with beta := s.beta + 1 })
      else lookupStats b k := by
  unfold update at h
  cases hd : dictGet b.ad_stats ad_id with
  | none => rw [hd] at h; exact absurd h (by simp)
  | some s0 =>
    rw [hd] at h
    by_cases hw : w = 1
    · rw [if_pos hw] at h
      simp only [Except.ok.injEq] at h
      subst h
      simp only [lookupStats, dictGet_bumpAlpha]
      by_cases hk : k = ad_id
      · rw [if_pos hk, if_pos hk]
        cases dictGet b.ad_stats k <;> simp [hw]
      · rw [if_neg hk, if_neg hk]
    · rw [if_neg hw] at h
      simp only [Except.ok.injEq] at h
      subst h
      simp only [lookupStats, dictGet_bumpBeta]
      by_cases hk : k = ad_id
      · rw [if_pos hk, if_pos hk]
        cases dictGet b.ad_stats k <;> simp [hw]
      · rw [if_neg hk, if_neg hk]

theorem update_ok_creatives (b b2 : ThompsonSamplingBandit) (ad_id w : ℕ)
    (h : update b ad_id w = .ok b2) : b2.creatives = b.creatives := by
  unfold update at h
  cases hd : dictGet b.ad_stats ad_id with
  | none => rw [hd] at h; exact absurd h (by simp)
  | some s0 =>
    rw [hd] at h
    by_cases hw : w = 1
    · rw [if_pos hw] at h
      simp only [Except.ok.injEq] at h
      rw [← h]
    · rw [if_neg hw] at h
      simp only [Except.ok.injEq] at h
      rw [← h]

theorem update_ok_of_isSome (b : ThompsonSamplingBandit) (ad_id w : ℕ)
    (h : (lookupStats b ad_id).isSome) : ∃ b2, update b ad_id w = .ok b2 := by
  unfold update
  cases hd : dictGet b.ad_stats ad_id with
  | none => rw [lookupStats, hd] at h; simp at h
  | some s0 =>
    by_cases hw : w = 1
    · exact ⟨_, by rw [if_pos hw]⟩
    · exact ⟨_, by rw [if_neg hw]⟩

theorem initBandit_lookup (creatives : List AdCreative) (k : ℕ) (s : Stats)
    (h : lookupStats (initBandit creatives) k = some s) : s = ⟨1, 1⟩ :=
  dictGet_map_const creatives ⟨1, 1⟩ k s h

/-! ### Claims C3, C4, C9 about `ThompsonSamplingBandit.update` -/

/-- C3: for a registered `arm_id` and an outcome in `{0,1}`, `update`
increments the arm's successes (alpha) by one when the outcome is 1 and its
failures (beta) by one otherwise, and changes nothing else: the other
parameter of the same arm, every other arm's belief state, and the creatives
registry are untouched. -/
theorem record_outcome_update_spec (b : ThompsonSamplingBandit) (ad_id w : ℕ) (s : Stats)
    (hs : lookupStats b ad_id = some s) (hw : w = 0 ∨ w = 1) :
    ∃ b2, update b ad_id w = .ok b2 ∧
      lookupStats b2 ad_id =
        some (if w = 1 then { s with alpha := s.alpha + 1 } else { s with beta := s.beta + 1 }) ∧
      (∀ k, k ≠ ad_id → lookupStats b2 k = lookupStats b k) ∧
      b2.creatives = b.creatives := by
  obtain ⟨b2, hb2⟩ := update_ok_of_isSome b ad_id w (by rw [hs]; rfl)
  refine ⟨b2, hb2, ?_, ?_, update_ok_creatives b b2 ad_id w hb2⟩
  · rw [update_ok_stats b b2 ad_id w hb2 ad_id, if_pos rfl, hs]
    rfl
  · intro k hk
    rw [update_ok_stats b b2 ad_id w hb2 k, if_neg hk]

theorem record_outcome_update_spec_witness :
    ∃ b2, update (initBandit appCreatives) 2 1 = .ok b2 ∧
      lookupStats b2 2 =
        some (if 1 = 1 then { Stats.mk 1 1 with alpha := 1 + 1 }
              else { Stats.mk 1 1 with beta := 1 + 1 }) ∧
      (∀ k, k ≠ 2 → lookupStats b2 k = lookupStats (initBandit appCreatives) k) ∧
      b2.creatives = (initBandit appCreatives).creatives :=
  record_outcome_update_spec (initBandit appCreatives) 2 1 ⟨1, 1⟩ (by decide) (Or.inr rfl)

/-- C9: `update` on an `arm_id` absent from the registry fails with a
KeyError (never a silent success), and produces no updated bandit state at
all, so the belief state of every registered arm is untouched. -/
theorem record_outcome_missing_key_error (b : ThompsonSamplingBandit) (ad_id w : ℕ)
    (h : lookupStats b ad_id = none) :
    update b ad_id w = .error .keyError ∧ ∀ b2, update b ad_id w ≠ .ok b2 := by
  have hu : update b ad_id w = .error .keyError := by
    unfold update
    rw [lookupStats] at h
    rw [h]
  exact ⟨hu, fun b2 hc => by rw [hu] at hc; exact absurd hc (by simp)⟩

theorem record_outcome_missing_key_error_witness :
    update (initBandit appCreatives) 99 1 = .error .keyError ∧
      ∀ b2, update (initBandit appCreatives) 99 1 ≠ .ok b2 :=
  record_outcome_missing_key_error (initBandit appCreatives) 99 1 (by decide)

/-- C4: in every reachable bandit state (fresh construction followed by any
sequence of successful updates), every arm's successes and failures are at
least 1, and every successful `update` leaves each belief parameter greater
than or equal to its previous value. -/
theorem reachable_stats_pos_mono (b : ThompsonSamplingBandit) (hb : Reachable b) :
    (∀ k s, lookupStats b k = some s → 1 ≤ s.alpha ∧ 1 ≤ s.beta) ∧
      (∀ ad_id w b2, update b ad_id w = .ok b2 →
        ∀ k s s2, lookupStats b k = some s → lookupStats b2 k = some s2 →
          s.alpha ≤ s2.alpha ∧ s.beta ≤ s2.beta) := by
  have mono : ∀ (c : ThompsonSamplingBandit) (ad_id w b2 : _),
      update c ad_id w = .ok b2 →
      ∀ k s s2, lookupStats c k = some s → lookupStats b2 k = some s2 →
        s.alpha ≤ s2.alpha ∧ s.beta ≤ s2.beta := by
    intro c ad_id w b2 h k s s2 hs hs2
    rw [update_ok_stats c b2 ad_id w h k] at hs2
    by_cases hk : k = ad_id
    · rw [if_pos hk, hs] at hs2
      by_cases hw : w = 1
      · rw [Option.map_some', Option.some.injEq, if_pos hw] at hs2
        rw [← hs2]
        exact ⟨Nat.le_succ_of_le (le_refl _), le_refl _⟩
      · rw [Option.map_some', Option.some.injEq, if_neg hw] at hs2
        rw [← hs2]
        exact ⟨le_refl _, Nat.le_succ_of_le (le_refl _)⟩
    · rw [if_neg hk, hs] at hs2
      rw [Option.some.injEq] at hs2
      rw [← hs2]
      exact ⟨le_refl _, le_refl _⟩
  refine ⟨?_, fun ad_id w b2 h => mono b ad_id w b2 h⟩
  induction hb with
  | init creatives =>
    intro k s hs
    rw [initBandit_lookup creatives k s hs]
    exact ⟨le_refl 1, le_refl 1⟩
  | step c b2 ad_id w _ hup ih =>
    intro k s2 hs2
    rw [update_ok_stats c b2 ad_id w hup k] at hs2
    by_cases hk : k = ad_id
    · subst hk
      rw [if_pos rfl] at hs2
      cases hs : lookupStats c k with
      | none => rw [hs] at hs2; exact absurd hs2 (by simp)
      | some s0 =>
        rw [hs] at hs2
        have h0 := ih k s0 hs
        by_cases hw : w = 1
        · rw [Option.map_some', Option.some.injEq, if_pos hw] at hs2
          rw [← hs2]
          exact ⟨Nat.le_succ_of_le h0.1, h0.2⟩
        · rw [Option.map_some', Option.some.injEq, if_neg hw] at hs2
          rw [← hs2]
          exact ⟨h0.1, Nat.le_succ_of_le h0.2⟩
    · rw [if_neg hk] at hs2
      exact ih k s2 hs2

theorem reachable_stats_pos_mono_witness :
    (∀ k s, lookupStats (initBandit appCreatives) k = some s → 1 ≤ s.alpha ∧ 1 ≤ s.beta) ∧
      (∀ ad_id w b2, update (initBandit appCreatives) ad_id w = .ok b2 →
        ∀ k s s2, lookupStats (initBandit appCreatives) k = some s →
          lookupStats b2 k = some s2 → s.alpha ≤ s2.alpha ∧ s.beta ≤ s2.beta) :=
  reachable_stats_pos_mono (initBandit appCreatives) (Reachable.init appCreatives)

/-! ### Lemmas about the selection loop of `select_ad` -/

theorem selectLoop_const (samples : ℕ → ℚ) (l : List AdCreative) :
    ∀ (i : ℕ) (best : Option AdCreative) (m : ℚ),
      (∀ d, d < l.length → samples (i + d) ≤ m) →
      selectLoop samples l i best m = best := by
  induction l with
  | nil => intro i best m _; rfl
  | cons ad rest ih =>
    intro i best m hle
    have h0 : samples i ≤ m := by simpa using hle 0 (by simp)
    simp only [selectLoop]
    rw [if_neg (not_lt.mpr h0)]
    apply ih
    intro d hd
    have h1 := hle (d + 1) (by simpa using Nat.succ_lt_succ hd)
    rw [show i + 1 + d = i + (d + 1) by omega]
    exact h1

theorem selectLoop_argmax (samples : ℕ → ℚ) (l : List AdCreative) :
    ∀ (i : ℕ) (best : Option AdCreative) (m : ℚ),
      (∃ d, d < l.length ∧ m < samples (i + d)) →
      ∃ (j : ℕ) (hj : j < l.length),
        selectLoop samples l i best m = some (l.get ⟨j, hj⟩) ∧
        m < samples (i + j) ∧
        (∀ e, e < l.length → samples (i + e) ≤ samples (i + j)) ∧
        (∀ e, e < j → samples (i + e) < samples (i + j)) := by
  induction l with
  | nil =>
    intro i best m hex
    obtain ⟨d, hd, _⟩ := hex
    exact absurd hd (by simp)
  | cons ad rest ih =>
    intro i best m hex
    by_cases h0 : m < samples i
    · simp only [selectLoop]
      rw [if_pos h0]
      by_cases hrest : ∃ d, d < rest.length ∧ samples i < samples (i + 1 + d)
      · obtain ⟨j, hj, hsel, hgt, hmax, hfirst⟩ := ih (i + 1) (some ad) (samples i) hrest
        refine ⟨j + 1, by simpa using Nat.succ_lt_succ hj, ?_, ?_, ?_, ?_⟩
        · rw [hsel]; rfl
        · rw [show i + (j + 1) = i + 1 + j by omega]
          exact lt_trans h0 hgt
        · intro e he
          cases e with
          | zero =>
            rw [Nat.add_zero, show i + (j + 1) = i + 1 + j by omega]
            exact le_of_lt hgt
          | succ e2 =>
            have := hmax e2 (by simpa using Nat.lt_of_succ_lt_succ he)
            rw [show i + (e2 + 1) = i + 1 + e2 by omega,
                show i + (j + 1) = i + 1 + j by omega]
            exact this
        · intro e he
          cases e with
          | zero =>
            rw [Nat.add_zero, show i + (j + 1) = i + 1 + j by omega]
            exact hgt
          | succ e2 =>
            have := hfirst e2 (Nat.lt_of_succ_lt_succ he)
            rw [show i + (e2 + 1) = i + 1 + e2 by omega,
                show i + (j + 1) = i + 1 + j by omega]
            exact this
      · push_neg at hrest
        have hconst := selectLoop_const samples rest (i + 1) (some ad) (samples i) hrest
        refine ⟨0, by simp, ?_, by simpa using h0, ?_, ?_⟩
        · simp only [selectLoop] at hconst ⊢
          rw [hconst]
          rfl
        · intro e he
          cases e with
          | zero => exact le_refl _
          | succ e2 =>
            have := hrest e2 (by simpa using Nat.lt_of_succ_lt_succ he)
            rw [show i + (e2 + 1) = i + 1 + e2 by omega, Nat.add_zero]
            exact this
        · intro e he
          exact absurd he (Nat.not_lt_zero e)
    · simp only [selectLoop]
      rw [if_neg h0]
      obtain ⟨d, hd, hgt⟩ := hex
      have hd0 : d ≠ 0 := by
        rintro rfl
        rw [Nat.add_zero] at hgt
        exact h0 hgt
      have hex2 : ∃ d2, d2 < rest.length ∧ m < samples (i + 1 + d2) := by
        refine ⟨d - 1, by simp at hd; omega, ?_⟩
        rw [show i + 1 + (d - 1) = i + d by omega]
        exact hgt
      obtain ⟨j, hj, hsel, hgt2, hmax, hfirst⟩ := ih (i + 1) best m hex2
      have hile : samples i ≤ m := not_lt.mp h0
      refine ⟨j + 1, by simpa using Nat.succ_lt_succ hj, ?_, ?_, ?_, ?_⟩
      · rw [hsel]; rfl
      · rw [show i + (j + 1) = i + 1 + j by omega]
        exact hgt2
      · intro e he
        cases e with
        | zero =>
          rw [Nat.add_zero, show i + (j + 1) = i + 1 + j by omega]
          exact le_of_lt (lt_of_le_of_lt hile hgt2)
        | succ e2 =>
          have := hmax e2 (by simpa using Nat.lt_of_succ_lt_succ he)
          rw [show i + (e2 + 1) = i + 1 + e2 by omega,
              show i + (j + 1) = i + 1 + j by omega]
          exact this
      · intro e he
        cases e with
        | zero =>
          rw [Nat.add_zero, show i + (j + 1) = i + 1 + j by omega]
          exact lt_of_le_of_lt hile hgt2
        | succ e2 =>
          have := hfirst e2 (Nat.lt_of_succ_lt_succ he)
          rw [show i + (e2 + 1) = i + 1 + e2 by omega,
              show i + (j + 1) = i + 1 + j by omega]
          exact this

/-! ### Claims C2 and C10 about `select_ad` -/

/-- C2: over a non-empty registry, with one (nonnegative) Beta sample drawn
per arm in registry order, `select_ad` returns the arm whose sample is the
maximum, and on ties the first arm encountered in registry order retains the
maximum: every arm strictly before the returned one has a strictly smaller
sample, and no arm anywhere has a strictly larger one. -/
theorem select_ad_first_argmax (b : ThompsonSamplingBandit) (samples : ℕ → ℚ)
    (hne : b.creatives ≠ []) (hpos : ∀ j, j < b.creatives.length → 0 ≤ samples j) :
    ∃ (j : ℕ) (hj : j < b.creatives.length),
      select_ad b samples = some (b.creatives.get ⟨j, hj⟩) ∧
      (∀ e, e < b.creatives.length → samples e ≤ samples j) ∧
      (∀ e, e < j → samples e < samples j) := by
  have hlen : 0 < b.creatives.length := List.length_pos.mpr hne
  have hex : ∃ d, d < b.creatives.length ∧ (-1 : ℚ) < samples (0 + d) := by
    refine ⟨0, hlen, ?_⟩
    have := hpos 0 hlen
    rw [Nat.add_zero]
    linarith
  obtain ⟨j, hj, hsel, _, hmax, hfirst⟩ := selectLoop_argmax samples b.creatives 0 none (-1) hex
  refine ⟨j, hj, hsel, ?_, ?_⟩
  · intro e he
    have := hmax e he
    simpa using this
  · intro e he
    have := hfirst e he
    simpa using this

theorem select_ad_first_argmax_witness :
    ∃ (j : ℕ) (hj : j < (initBandit appCreatives).creatives.length),
      select_ad (initBandit appCreatives) (fun _ => 1/2) =
        some ((initBandit appCreatives).creatives.get ⟨j, hj⟩) ∧
      (∀ e, e < (initBandit appCreatives).creatives.length → (1 : ℚ)/2 ≤ (1 : ℚ)/2) ∧
      (∀ e, e < j → (1 : ℚ)/2 < (1 : ℚ)/2) :=
  select_ad_first_argmax (initBandit appCreatives) (fun _ => 1/2) (by decide)
    (fun j _ => by norm_num)

/-- C10: with every Beta sample in `[0,1]` and the running maximum started
at `-1`, `select_ad` over a non-empty registry always returns some member of
the registry; over an empty registry it returns `None` without signaling an
error. -/
theorem select_ad_total_membership (b : ThompsonSamplingBandit) (samples : ℕ → ℚ) :
    (b.creatives = [] → select_ad b samples = none) ∧
    (b.creatives ≠ [] →
      (∀ j, j < b.creatives.length → 0 ≤ samples j ∧ samples j ≤ 1) →
      ∃ ad, select_ad b samples = some ad ∧ ad ∈ b.creatives) := by
  constructor
  · intro hemp
    rw [select_ad, hemp]
    rfl
  · intro hne hrange
    have hlen : 0 < b.creatives.length := List.length_pos.mpr hne
    have hex : ∃ d, d < b.creatives.length ∧ (-1 : ℚ) < samples (0 + d) := by
      refine ⟨0, hlen, ?_⟩
      have := (hrange 0 hlen).1
      rw [Nat.add_zero]
      linarith
    obtain ⟨j, hj, hsel, _, _, _⟩ := selectLoop_argmax samples b.creatives 0 none (-1) hex
    exact ⟨b.creatives.get ⟨j, hj⟩, hsel, List.get_mem b.creatives j hj⟩

theorem select_ad_total_membership_witness :
    select_ad (initBandit []) (fun _ => 1/2) = none ∧
      ∃ ad, select_ad (initBandit appCreatives) (fun _ => 1/2) = some ad ∧
        ad ∈ (initBandit appCreatives).creatives :=
  ⟨(select_ad_total_membership (initBandit []) (fun _ => 1/2)).1 rfl,
   (select_ad_total_membership (initBandit appCreatives) (fun _ => 1/2)).2 (by decide)
     (fun j _ => by norm_num)⟩

/-! ### Lemmas about counters, cumulative series and the simulation loop -/

theorem incrEntry_ok_of_isSome (l : List (ℕ × ℕ)) (k a : ℕ)
    (h : (dictGet l k).isSome) : ∃ l2, incrEntry l k a = .ok l2 := by
  induction l with
  | nil => simp [dictGet] at h
  | cons p rest ih =>
    obtain ⟨k1, v⟩ := p
    by_cases hk : k1 = k
    · refine ⟨(k1, v + a) :: rest, ?_⟩
      rw [incrEntry, if_pos hk]
    · rw [dictGet, if_neg hk] at h
      obtain ⟨l2, hl2⟩ := ih h
      refine ⟨(k1, v) :: l2, ?_⟩
      rw [incrEntry, if_neg hk, hl2]
      rfl

theorem incrEntry_ok_sum (l : List (ℕ × ℕ)) (k a : ℕ) (l2 : List (ℕ × ℕ))
    (h : incrEntry l k a = .ok l2) : sumValues l2 = sumValues l + a := by
  induction l generalizing l2 with
  | nil => rw [incrEntry] at h; exact absurd h (by simp)
  | cons p rest ih =>
    obtain ⟨k1, v⟩ := p
    by_cases hk : k1 = k
    · rw [incrEntry, if_pos hk] at h
      simp only [Except.ok.injEq] at h
      rw [← h]
      simp only [sumValues, List.map_cons, List.sum_cons]
      omega
    · rw [incrEntry, if_neg hk] at h
      cases hr : incrEntry rest k a with
      | error e => rw [hr] at h; exact absurd h (by simp [Except.map])
      | ok r =>
        rw [hr] at h
        simp only [Except.map, Except.ok.injEq] at h
        rw [← h]
        have := ih r hr
        simp only [sumValues, List.map_cons, List.sum_cons] at this ⊢
        omega

theorem incrEntry_ok_isSome (l : List (ℕ × ℕ)) (k a : ℕ) (l2 : List (ℕ × ℕ))
    (h : incrEntry l k a = .ok l2) (k2 : ℕ) :
    (dictGet l2 k2).isSome = (dictGet l k2).isSome := by
  induction l generalizing l2 with
  | nil => rw [incrEntry] at h; exact absurd h (by simp)
  | cons p rest ih =>
    obtain ⟨k1, v⟩ := p
    by_cases hk : k1 = k
    · rw [incrEntry, if_pos hk] at h
      simp only [Except.ok.injEq] at h
      rw [← h]
      by_cases hk2 : k1 = k2 <;> simp [dictGet, hk2]
    · rw [incrEntry, if_neg hk] at h
      cases hr : incrEntry rest k a with
      | error e => rw [hr] at h; exact absurd h (by simp [Except.map])
      | ok r =>
        rw [hr] at h
        simp only [Except.map, Except.ok.injEq] at h
        rw [← h]
        by_cases hk2 : k1 = k2
        · simp [dictGet, hk2]
        · simp only [dictGet, if_neg hk2]
          exact ih r hr

theorem dictGet_map_const_isSome {α : Type} (creatives : List AdCreative) (v : α)
    (ad : AdCreative) (had : ad ∈ creatives) :
    (dictGet (creatives.map fun c => (c.creative_id, v)) ad.creative_id).isSome := by
  induction creatives with
  | nil => exact absurd had (by simp)
  | cons c rest ih =>
    simp only [List.map_cons, dictGet]
    by_cases hk : c.creative_id = ad.creative_id
    · rw [if_pos hk]; rfl
    · rw [if_neg hk]
      rcases List.mem_cons.mp had with rfl | had2
      · exact absurd rfl hk
      · exact ih had2

theorem sumValues_initCounts (creatives : List AdCreative) :
    sumValues (initCounts creatives) = 0 := by
  induction creatives with
  | nil => rfl
  | cons ad rest ih =>
    simp only [initCounts, sumValues, List.map_cons, List.map_map, List.sum_cons] at ih ⊢
    omega

theorem update_ok_isSome (b b2 : ThompsonSamplingBandit) (ad_id w : ℕ)
    (h : update b ad_id w = .ok b2) (k : ℕ) :
    (lookupStats b2 k).isSome = (lookupStats b k).isSome := by
  rw [update_ok_stats b b2 ad_id w h k]
  by_cases hk : k = ad_id
  · rw [if_pos hk]
    cases lookupStats b k <;> rfl
  · rw [if_neg hk]

theorem lastD_append (l : List ℕ) (x d : ℕ) : lastD (l ++ [x]) d = x := by
  induction l generalizing d with
  | nil => rfl
  | cons y rest ih => rw [List.cons_append, lastD, ih]

theorem cumulFromB_append (p x : ℕ) (l : List ℕ)
    (hc : cumulFromB p l = true) (hx : x = lastD l p ∨ x = lastD l p + 1) :
    cumulFromB p (l ++ [x]) = true := by
  induction l generalizing p with
  | nil =>
    simp only [List.nil_append, cumulFromB, Bool.and_eq_true, Bool.or_eq_true,
      decide_eq_true_eq]
    exact ⟨by simpa [lastD] using hx, by trivial⟩
  | cons y rest ih =>
    simp only [cumulFromB, Bool.and_eq_true, Bool.or_eq_true, decide_eq_true_eq] at hc
    simp only [List.cons_append, cumulFromB, Bool.and_eq_true, Bool.or_eq_true,
      decide_eq_true_eq]
    refine ⟨hc.1, ih y hc.2 ?_⟩
    simpa [lastD] using hx

theorem cumulFromB_le_mem (p : ℕ) (l : List ℕ) (hc : cumulFromB p l = true) :
    ∀ x ∈ l, p ≤ x := by
  induction l generalizing p with
  | nil => intro x hx; exact absurd hx (by simp)
  | cons y rest ih =>
    intro x hx
    simp only [cumulFromB, Bool.and_eq_true, Bool.or_eq_true, decide_eq_true_eq] at hc
    rcases List.mem_cons.mp hx with rfl | hx2
    · rcases hc.1 with h | h <;> omega
    · have h1 := ih y hc.2 x hx2
      rcases hc.1 with h | h <;> omega

theorem cumulFromB_pairwise (p : ℕ) (l : List ℕ) (hc : cumulFromB p l = true) :
    List.Pairwise (fun a b2 => a ≤ b2) l := by
  induction l generalizing p with
  | nil => exact List.Pairwise.nil
  | cons y rest ih =>
    simp only [cumulFromB, Bool.and_eq_true, Bool.or_eq_true, decide_eq_true_eq] at hc
    exact List.Pairwise.cons (cumulFromB_le_mem y rest hc.2) (ih y hc.2)

theorem simInv_init (creatives : List AdCreative) :
    SimInv creatives 0 (initRunState creatives) := by
  refine ⟨rfl, ?_, ?_, ?_, ?_, ?_, rfl, rfl, ?_, ?_, rfl, rfl, ?_, ?_⟩
  · intro ad had
    exact dictGet_map_const_isSome creatives (⟨1, 1⟩ : Stats) ad had
  · intro ad had
    exact dictGet_map_const_isSome creatives 0 ad had
  · intro ad had
    exact dictGet_map_const_isSome creatives 0 ad had
  · intro ad had
    exact dictGet_map_const_isSome creatives 0 ad had
  · intro ad had
    exact dictGet_map_const_isSome creatives 0 ad had
  · exact sumValues_initCounts creatives
  · exact sumValues_initCounts creatives
  · simp only [initRunState]
    rw [sumValues_initCounts]
    rfl
  · simp only [initRunState]
    rw [sumValues_initCounts]
    rfl

theorem simStep_ok (creatives : List AdCreative) (samples : ℕ → ℕ → ℚ) (rB rA : ℕ → Bool)
    (i : ℕ) (st : RunState) (hne : creatives ≠ [])
    (hpos : ∀ p, 0 ≤ samples i p) (hinv : SimInv creatives i st) :
    ∃ st2, simStep creatives samples rB rA st i = .ok st2 ∧ SimInv creatives (i + 1) st2 := by
  obtain ⟨hcre, hstats, hbi, hbc, hai, hac, hbl, hal, hbs, has, hbcum, hacum, hblast, halast⟩ :=
    hinv
  have hlen : 0 < st.bandit.creatives.length := by
    rw [hcre]
    exact List.length_pos.mpr hne
  have hex : ∃ d, d < st.bandit.creatives.length ∧ (-1 : ℚ) < samples i (0 + d) := by
    refine ⟨0, hlen, ?_⟩
    have := hpos 0
    rw [Nat.add_zero]
    linarith
  obtain ⟨j, hj, hsel, -, -, -⟩ :=
    selectLoop_argmax (samples i) st.bandit.creatives 0 none (-1) hex
  set chosen := st.bandit.creatives.get ⟨j, hj⟩ with hchosen
  have hselad : select_ad st.bandit (samples i) = some chosen := hsel
  have hmem : chosen ∈ creatives := by
    rw [← hcre]
    exact List.get_mem st.bandit.creatives j hj
  obtain ⟨bandit2, hupd⟩ :=
    update_ok_of_isSome st.bandit chosen.creative_id (if rB i then 1 else 0)
      (hstats chosen hmem)
  obtain ⟨bi, hbi2⟩ := incrEntry_ok_of_isSome st.bandit_impressions chosen.creative_id 1
    (hbi chosen hmem)
  obtain ⟨bc, hbc2⟩ := incrEntry_ok_of_isSome st.bandit_clicks chosen.creative_id
    (if rB i then 1 else 0) (hbc chosen hmem)
  have hlen0 : ¬creatives.length = 0 := by
    intro h
    exact hne (List.length_eq_zero.mp h)
  have habsel : abSelect creatives i =
      some (creatives.get ⟨i % creatives.length, Nat.mod_lt i (Nat.pos_of_ne_zero hlen0)⟩) := by
    rw [abSelect, dif_neg hlen0]
  set ad2 := creatives.get ⟨i % creatives.length, Nat.mod_lt i (Nat.pos_of_ne_zero hlen0)⟩
    with had2
  have hmem2 : ad2 ∈ creatives := List.get_mem creatives _ _
  obtain ⟨ai, hai2⟩ := incrEntry_ok_of_isSome st.ab_impressions ad2.creative_id 1
    (hai ad2 hmem2)
  obtain ⟨ac, hac2⟩ := incrEntry_ok_of_isSome st.ab_clicks ad2.creative_id
    (if rA i then 1 else 0) (hac ad2 hmem2)
  refine ⟨{ bandit := bandit2
            bandit_impressions := bi
            bandit_clicks := bc
            bandit_history := st.bandit_history ++ [sumValues bc]
            ab_impressions := ai
            ab_clicks := ac
            ab_history := st.ab_history ++ [sumValues ac] }, ?_, ?_⟩
  · simp only [simStep, hselad, hupd, hbi2, hbc2, habsel, hai2, hac2]
  · refine ⟨?_, ?_, ?_, ?_, ?_, ?_, ?_, ?_, ?_, ?_, ?_, ?_, ?_, ?_⟩
    · rw [update_ok_creatives st.bandit bandit2 chosen.creative_id _ hupd]
      exact hcre
    · intro ad had
      rw [update_ok_isSome st.bandit bandit2 chosen.creative_id _ hupd]
      exact hstats ad had
    · intro ad had
      rw [incrEntry_ok_isSome st.bandit_impressions chosen.creative_id 1 bi hbi2]
      exact hbi ad had
    · intro ad had
      rw [incrEntry_ok_isSome st.bandit_clicks chosen.creative_id _ bc hbc2]
      exact hbc ad had
    · intro ad had
      rw [incrEntry_ok_isSome st.ab_impressions ad2.creative_id 1 ai hai2]
      exact hai ad had
    · intro ad had
      rw [incrEntry_ok_isSome st.ab_clicks ad2.creative_id _ ac hac2]
      exact hac ad had
    · simp only [List.length_append, List.length_cons, List.length_nil, hbl]
    · simp only [List.length_append, List.length_cons, List.length_nil, hal]
    · rw [incrEntry_ok_sum st.bandit_impressions chosen.creative_id 1 bi hbi2, hbs]
    · rw [incrEntry_ok_sum st.ab_impressions ad2.creative_id 1 ai hai2, has]
    · apply cumulFromB_append 0 _ _ hbcum
      rw [hblast]
      have hsum := incrEntry_ok_sum st.bandit_clicks chosen.creative_id _ bc hbc2
      cases hrb : rB i with
      | false =>
        left
        rw [hsum, hrb]
        simp
      | true =>
        right
        rw [hsum, hrb]
        simp
    · apply cumulFromB_append 0 _ _ hacum
      rw [halast]
      have hsum := incrEntry_ok_sum st.ab_clicks ad2.creative_id _ ac hac2
      cases hra : rA i with
      | false =>
        left
        rw [hsum, hra]
        simp
      | true =>
        right
        rw [hsum, hra]
        simp
    · rw [lastD_append]
    · rw [lastD_append]

theorem simLoop_ok (creatives : List AdCreative) (samples : ℕ → ℕ → ℚ) (rB rA : ℕ → Bool)
    (hne : creatives ≠ []) (hpos : ∀ j p, 0 ≤ samples j p) :
    ∀ (n i : ℕ) (st : RunState), SimInv creatives i st →
      ∃ st2, simLoop creatives samples rB rA n i st = .ok st2 ∧
        SimInv creatives (i + n) st2 := by
  intro n
  induction n with
  | zero =>
    intro i st hinv
    exact ⟨st, rfl, by simpa using hinv⟩
  | succ n ih =>
    intro i st hinv
    obtain ⟨st2, hstep, hinv2⟩ := simStep_ok creatives samples rB rA i st hne (hpos i) hinv
    obtain ⟨st3, hloop, hinv3⟩ := ih (i + 1) st2 hinv2
    refine ⟨st3, ?_, ?_⟩
    · simp only [simLoop, hstep]
      exact hloop
    · rw [show i + (n + 1) = i + 1 + n by omega]
      exact hinv3

theorem run_simulation_ok (creatives : List AdCreative)
    (samples : ℕ → ℕ → ℚ) (rB rA : ℕ → Bool) (total_impressions : ℕ)
    (hne : creatives ≠ []) (hpos : ∀ j p, 0 ≤ samples j p) :
    ∃ res, run_simulation creatives samples rB rA total_impressions = .ok res ∧
      res.bandit_history.length = total_impressions ∧
      res.ab_history.length = total_impressions ∧
      cumulFromB 0 res.bandit_history = true ∧
      cumulFromB 0 res.ab_history = true ∧
      sumValues res.bandit_impressions = total_impressions ∧
      sumValues res.ab_impressions = total_impressions := by
  obtain ⟨st, hloop, hinv⟩ := simLoop_ok creatives samples rB rA hne hpos total_impressions 0
    (initRunState creatives) (simInv_init creatives)
  obtain ⟨-, -, -, -, -, -, hbl, hal, hbs, has, hbcum, hacum, -, -⟩ := hinv
  have hrun : run_simulation creatives samples rB rA total_impressions =
      .ok { bandit_impressions := st.bandit_impressions
            bandit_clicks := st.bandit_clicks
            bandit_history := st.bandit_history
            ab_impressions := st.ab_impressions
            ab_clicks := st.ab_clicks
            ab_history := st.ab_history } := by
    simp only [run_simulation, hloop]
  refine ⟨_, hrun, ?_, ?_, ?_, ?_, ?_, ?_⟩
  · simpa using hbl
  · simpa using hal
  · exact hbcum
  · exact hacum
  · simpa using hbs
  · simpa using has

/-! ### Claim C5 about `run_simulation` -/

/-- C5: over a non-empty creative list with at least one impression (and
Beta samples nonnegative, as Beta samples are), `run_simulation` returns a
result whose two cumulative-click histories have length exactly
`total_impressions`, are non-decreasing, and grow by 0 or 1 at each step
(with virtual predecessor 0 at index 0); and the per-arm impression counts
of each strategy sum to `total_impressions`. -/
theorem run_simulation_histories_spec (creatives : List AdCreative)
    (samples : ℕ → ℕ → ℚ) (rB rA : ℕ → Bool) (total_impressions : ℕ)
    (hne : creatives ≠ []) (himp : 1 ≤ total_impressions)
    (hpos : ∀ j p, 0 ≤ samples j p) :
    ∃ res, run_simulation creatives samples rB rA total_impressions = .ok res ∧
      res.bandit_history.length = total_impressions ∧
      res.ab_history.length = total_impressions ∧
      cumulFromB 0 res.bandit_history = true ∧
      cumulFromB 0 res.ab_history = true ∧
      List.Pairwise (fun a b2 => a ≤ b2) res.bandit_history ∧
      List.Pairwise (fun a b2 => a ≤ b2) res.ab_history ∧
      sumValues res.bandit_impressions = total_impressions ∧
      sumValues res.ab_impressions = total_impressions := by
  obtain ⟨res, hrun, hbl, hal, hbcum, hacum, hbs, has⟩ :=
    run_simulation_ok creatives samples rB rA total_impressions hne hpos
  exact ⟨res, hrun, hbl, hal, hbcum, hacum, cumulFromB_pairwise 0 _ hbcum,
    cumulFromB_pairwise 0 _ hacum, hbs, has⟩

theorem run_simulation_histories_spec_witness :
    ∃ res, run_simulation appCreatives (fun _ _ => 1/2) (fun _ => true) (fun _ => false) 2 =
        .ok res ∧
      res.bandit_history.length = 2 ∧
      res.ab_history.length = 2 ∧
      cumulFromB 0 res.bandit_history = true ∧
      cumulFromB 0 res.ab_history = true ∧
      List.Pairwise (fun a b2 => a ≤ b2) res.bandit_history ∧
      List.Pairwise (fun a b2 => a ≤ b2) res.ab_history ∧
      sumValues res.bandit_impressions = 2 ∧
      sumValues res.ab_impressions = 2 :=
  run_simulation_histories_spec appCreatives (fun _ _ => 1/2) (fun _ => true) (fun _ => false) 2
    (by decide) (by omega) (fun j p => by norm_num)

/-! ### Claim C7 about the round-robin baseline -/

theorem add_mod_eq_iff (k r d j : ℕ) (hk : 0 < k) (hr : r < k) (hd : d < k) (hj : j < k) :
    (r + d) % k = j ↔ (r + d = j ∨ r + d = k + j) := by
  have hcase : (r + d) % k = if r + d < k then r + d else r + d - k := by
    by_cases h : r + d < k
    · rw [if_pos h, Nat.mod_eq_of_lt h]
    · rw [if_neg h, Nat.mod_eq_sub_mod (le_of_not_lt h), Nat.mod_eq_of_lt (by omega)]
  rw [hcase]
  by_cases h : r + d < k
  · rw [if_pos h]
    omega
  · rw [if_neg h]
    omega

theorem filter_mod_window_card (k m j : ℕ) (hk : 0 < k) (hj : j < k) :
    ((Finset.range k).filter fun d => (m + d) % k = j).card = 1 := by
  have hrk : m % k < k := Nat.mod_lt m hk
  have key : ∀ d, d < k → ((m + d) % k = j ↔ (m % k + d = j ∨ m % k + d = k + j)) := by
    intro d hd
    rw [Nat.add_mod, Nat.mod_eq_of_lt hd]
    exact add_mod_eq_iff k (m % k) d j hk hrk hd hj
  rw [Finset.card_eq_one]
  refine ⟨if m % k ≤ j then j - m % k else k + j - m % k, ?_⟩
  ext d
  simp only [Finset.mem_filter, Finset.mem_range, Finset.mem_singleton]
  constructor
  · rintro ⟨hd, hmod⟩
    rw [key d hd] at hmod
    split_ifs <;> omega
  · intro hd
    have hdk : d < k := by
      split_ifs at hd <;> omega
    refine ⟨hdk, (key d hdk).mpr ?_⟩
    split_ifs at hd <;> omega

/-- C7: the round-robin baseline of `run_simulation` selects, at impression
`i`, exactly the arm at registry index `i % k` (`k` the number of arms), and
over any window of `k` consecutive impressions each arm of the registry
(arm ids being distinct) is selected exactly once. -/
theorem ab_round_robin_spec (creatives : List AdCreative)
    (hne : creatives ≠ [])
    (hnodup : (creatives.map fun ad => ad.creative_id).Nodup) :
    (∀ i, ∃ h : i % creatives.length < creatives.length,
        abSelect creatives i = some (creatives.get ⟨i % creatives.length, h⟩)) ∧
    (∀ m j (hj : j < creatives.length),
        ((Finset.range creatives.length).filter
          (fun d => abSelect creatives (m + d) = some (creatives.get ⟨j, hj⟩))).card = 1) := by
  have hlen0 : ¬creatives.length = 0 := fun h => hne (List.length_eq_zero.mp h)
  have hk : 0 < creatives.length := Nat.pos_of_ne_zero hlen0
  have hnd : creatives.Nodup := List.Nodup.of_map _ hnodup
  constructor
  · intro i
    exact ⟨Nat.mod_lt i hk, by rw [abSelect, dif_neg hlen0]⟩
  · intro m j hj
    have hpred : ∀ d, (abSelect creatives (m + d) = some (creatives.get ⟨j, hj⟩)) ↔
        ((m + d) % creatives.length = j) := by
      intro d
      rw [abSelect, dif_neg hlen0]
      constructor
      · intro h
        have h2 := Option.some.inj h
        have h3 := (List.Nodup.get_inj_iff hnd).mp h2
        exact congrArg Fin.val h3
      · intro h
        exact congrArg (fun f => some (creatives.get f)) (Fin.ext h)
    rw [Finset.filter_congr (fun d _ => hpred d)]
    exact filter_mod_window_card creatives.length m j hk hj

theorem ab_round_robin_spec_witness :
    (∀ i, ∃ h : i % appCreatives.length < appCreatives.length,
        abSelect appCreatives i = some (appCreatives.get ⟨i % appCreatives.length, h⟩)) ∧
    (∀ m j (hj : j < appCreatives.length),
        ((Finset.range appCreatives.length).filter
          (fun d => abSelect appCreatives (m + d) = some (appCreatives.get ⟨j, hj⟩))).card = 1) :=
  ab_round_robin_spec appCreatives (by decide) (by decide)

/-! ### Lemmas about the multi-run aggregation -/

theorem runsLoop_ok (creatives : List AdCreative) (samples : ℕ → ℕ → ℕ → ℚ)
    (rB rA : ℕ → ℕ → Bool) (T : ℕ) (hne : creatives ≠ [])
    (hpos : ∀ r j p, 0 ≤ samples r j p) :
    ∀ (n r0 : ℕ), ∃ results, runsLoop creatives samples rB rA T n r0 = .ok results ∧
      results.length = n ∧
      ∀ res ∈ results, res.bandit_history.length = T ∧ res.ab_history.length = T := by
  intro n
  induction n with
  | zero =>
    intro r0
    refine ⟨[], rfl, rfl, ?_⟩
    intro res h
    exact absurd h (by simp)
  | succ n ih =>
    intro r0
    obtain ⟨res, hres, hbl, hal, -, -, -, -⟩ :=
      run_simulation_ok creatives (samples r0) (rB r0) (rA r0) T hne (hpos r0)
    obtain ⟨results, hruns, hlen, hprop⟩ := ih (r0 + 1)
    refine ⟨res :: results, ?_, by simp [hlen], ?_⟩
    · simp only [runsLoop, hres, hruns]
      rfl
    · intro res2 h2
      rcases List.mem_cons.mp h2 with rfl | h3
      · exact ⟨hbl, hal⟩
      · exact hprop res2 h3

theorem meanSeries_length (h : List ℕ) (rest : List (List ℕ)) :
    (meanSeries (h :: rest)).length = h.length := by
  simp [meanSeries]

theorem meanSeries_single (h : List ℕ) :
    meanSeries [h] = h.map (fun (x : ℕ) => (x : ℚ)) := by
  simp only [meanSeries, List.map_cons, List.map_nil, List.sum_cons, List.sum_nil,
    List.length_cons, List.length_nil, add_zero, zero_add, Nat.cast_one, div_one]
  apply List.ext_getElem
  · simp only [List.length_map, List.length_range]
  · intro j hj1 hj2
    have hb : j < h.length := by simpa using hj2
    rw [List.getElem_map, List.getElem_map, List.getElem_range,
      List.getD_eq_getElem h 0 hb]

theorem varSeries_single (h : List ℕ) :
    varSeries [h] = List.replicate h.length 0 := by
  simp only [varSeries, List.map_cons, List.map_nil, List.sum_cons, List.sum_nil,
    List.length_cons, List.length_nil, add_zero, zero_add, Nat.cast_one, div_one]
  apply List.ext_getElem
  · simp only [List.length_map, List.length_range, List.length_replicate]
  · intro j hj1 hj2
    rw [List.getElem_map, List.getElem_range, List.getElem_replicate]
    simp [sub_self]

theorem meanSeries_nonneg (hists : List (List ℕ)) (q : ℚ) (hq : q ∈ meanSeries hists) :
    0 ≤ q := by
  cases hists with
  | nil => simp [meanSeries] at hq
  | cons h rest =>
    simp only [meanSeries, List.mem_map, List.mem_range] at hq
    obtain ⟨j, -, rfl⟩ := hq
    apply div_nonneg
    · apply List.sum_nonneg
      intro x hx
      simp only [List.mem_map] at hx
      obtain ⟨hh, -, rfl⟩ := hx
      exact Nat.cast_nonneg _
    · exact Nat.cast_nonneg _

theorem aggregate_eq_ok (creatives : List AdCreative) (samples : ℕ → ℕ → ℕ → ℚ)
    (rB rA : ℕ → ℕ → Bool) (T n : ℕ) (results : List RunResult) (avgB avgA : ℚ)
    (hruns : runsLoop creatives samples rB rA T n 0 = .ok results)
    (hB : (meanSeries (results.map fun res => res.bandit_history)).getLast? = some avgB)
    (hA : (meanSeries (results.map fun res => res.ab_history)).getLast? = some avgA) :
    aggregate creatives samples rB rA T n = .ok
      { mean_bandit_clicks_hist := meanSeries (results.map fun res => res.bandit_history)
        var_bandit_clicks_hist := varSeries (results.map fun res => res.bandit_history)
        mean_ab_clicks_hist := meanSeries (results.map fun res => res.ab_history)
        var_ab_clicks_hist := varSeries (results.map fun res => res.ab_history)
        avg_total_bandit_clicks := avgB
        avg_total_ab_clicks := avgA
        avg_bandit_ctr := avgB / (T : ℚ)
        avg_ab_ctr := avgA / (T : ℚ)
        uplift_percentage := if 0 < avgA then (avgB - avgA) / avgA * 100 else 0 } := by
  simp only [aggregate, hruns, hB, hA]

theorem getLast?_some_of_ne_nil {α : Type} (l : List α) (h : l ≠ []) :
    ∃ x, l.getLast? = some x := by
  cases hl : l.getLast? with
  | none => exact absurd (List.getLast?_eq_none_iff.mp hl) h
  | some x => exact ⟨x, rfl⟩

/-! ### Claims C6, C8 and C1 about the multi-run aggregation -/

/-- C6: for `num_runs ≥ 1` runs of `total_impressions ≥ 1` impressions each
(non-empty config, nonnegative Beta samples), the aggregation succeeds and
each strategy's mean series has length exactly `total_impressions`; when
`num_runs = 1` the standard-deviation series is identically 0 (its square,
the variance series, is the all-zero series) and the mean series equals
exactly the single run's cumulative-clicks series. -/
theorem aggregate_mean_length_single_run (creatives : List AdCreative)
    (samples : ℕ → ℕ → ℕ → ℚ) (rB rA : ℕ → ℕ → Bool) (total_impressions num_runs : ℕ)
    (hne : creatives ≠ []) (himp : 1 ≤ total_impressions) (hrun : 1 ≤ num_runs)
    (hpos : ∀ r j p, 0 ≤ samples r j p) :
    ∃ agg, aggregate creatives samples rB rA total_impressions num_runs = .ok agg ∧
      agg.mean_bandit_clicks_hist.length = total_impressions ∧
      agg.mean_ab_clicks_hist.length = total_impressions ∧
      (num_runs = 1 →
        ∃ res, run_simulation creatives (samples 0) (rB 0) (rA 0) total_impressions =
            .ok res ∧
          agg.var_bandit_clicks_hist = List.replicate total_impressions 0 ∧
          agg.var_ab_clicks_hist = List.replicate total_impressions 0 ∧
          agg.mean_bandit_clicks_hist = res.bandit_history.map (fun (x : ℕ) => (x : ℚ)) ∧
          agg.mean_ab_clicks_hist = res.ab_history.map (fun (x : ℕ) => (x : ℚ))) := by
  obtain ⟨results, hruns, hlen, hprop⟩ := runsLoop_ok creatives samples rB rA
    total_impressions hne hpos num_runs 0
  cases results with
  | nil =>
    rw [List.length_nil] at hlen
    omega
  | cons r1 rest =>
    have hr1 := hprop r1 (List.mem_cons_self r1 rest)
    have hmbl : (meanSeries ((r1 :: rest).map fun res => res.bandit_history)).length =
        total_impressions := by
      rw [List.map_cons, meanSeries_length, hr1.1]
    have hmal : (meanSeries ((r1 :: rest).map fun res => res.ab_history)).length =
        total_impressions := by
      rw [List.map_cons, meanSeries_length, hr1.2]
    obtain ⟨avgB, hB⟩ := getLast?_some_of_ne_nil
      (meanSeries ((r1 :: rest).map fun res => res.bandit_history)) (by
        intro h
        rw [h, List.length_nil] at hmbl
        omega)
    obtain ⟨avgA, hA⟩ := getLast?_some_of_ne_nil
      (meanSeries ((r1 :: rest).map fun res => res.ab_history)) (by
        intro h
        rw [h, List.length_nil] at hmal
        omega)
    refine ⟨_, aggregate_eq_ok creatives samples rB rA total_impressions num_runs
      (r1 :: rest) avgB avgA hruns hB hA, hmbl, hmal, ?_⟩
    intro h1
    obtain ⟨res0, hres0, hbl0, hal0, -, -, -, -⟩ :=
      run_simulation_ok creatives (samples 0) (rB 0) (rA 0) total_impressions hne (hpos 0)
    have hone : runsLoop creatives samples rB rA total_impressions 1 0 = .ok [res0] := by
      have h2 : runsLoop creatives samples rB rA total_impressions 1 0 =
          (match run_simulation creatives (samples 0) (rB 0) (rA 0) total_impressions with
           | .error e => (.error e : Except SimError (List RunResult))
           | .ok res => (runsLoop creatives samples rB rA total_impressions 0 1).map
               (fun rest2 => res :: rest2)) := rfl
      rw [h2, hres0]
      rfl
    rw [h1, hone] at hruns
    simp only [Except.ok.injEq, List.cons.injEq] at hruns
    obtain ⟨hra, hrb⟩ := hruns
    subst hra
    subst hrb
    refine ⟨res0, hres0, ?_, ?_, ?_, ?_⟩
    · show varSeries ([res0].map fun res => res.bandit_history) =
        List.replicate total_impressions 0
      rw [List.map_cons, List.map_nil, varSeries_single, hbl0]
    · show varSeries ([res0].map fun res => res.ab_history) =
        List.replicate total_impressions 0
      rw [List.map_cons, List.map_nil, varSeries_single, hal0]
    · show meanSeries ([res0].map fun res => res.bandit_history) =
        res0.bandit_history.map (fun (x : ℕ) => (x : ℚ))
      rw [List.map_cons, List.map_nil, meanSeries_single]
    · show meanSeries ([res0].map fun res => res.ab_history) =
        res0.ab_history.map (fun (x : ℕ) => (x : ℚ))
      rw [List.map_cons, List.map_nil, meanSeries_single]

theorem aggregate_mean_length_single_run_witness :
    ∃ agg, aggregate appCreatives (fun _ _ _ => 1/2) (fun _ _ => true) (fun _ _ => false)
        1 1 = .ok agg ∧
      agg.mean_bandit_clicks_hist.length = 1 ∧
      agg.mean_ab_clicks_hist.length = 1 ∧
      (1 = 1 →
        ∃ res, run_simulation appCreatives (fun _ => (fun _ => 1/2)) (fun _ => true)
            (fun _ => false) 1 = .ok res ∧
          agg.var_bandit_clicks_hist = List.replicate 1 0 ∧
          agg.var_ab_clicks_hist = List.replicate 1 0 ∧
          agg.mean_bandit_clicks_hist = res.bandit_history.map (fun (x : ℕ) => (x : ℚ)) ∧
          agg.mean_ab_clicks_hist = res.ab_history.map (fun (x : ℕ) => (x : ℚ))) :=
  aggregate_mean_length_single_run appCreatives (fun _ _ _ => 1/2) (fun _ _ => true)
    (fun _ _ => false) 1 1 (by decide) (by omega) (by omega) (fun r j p => by norm_num)

/-- C8: whatever the (valid) aggregation inputs, the aggregate's final
averages are the last entries of the two mean series, `avg CTR` is the mean
final clicks divided by `total_impressions`, and the uplift equals
`(bandit_final - ab_final) / ab_final * 100` when `ab_final` is positive and
`0` when `ab_final = 0` (the A/B mean final clicks are never negative). -/
theorem aggregate_uplift_ctr_spec (creatives : List AdCreative)
    (samples : ℕ → ℕ → ℕ → ℚ) (rB rA : ℕ → ℕ → Bool) (total_impressions num_runs : ℕ)
    (hne : creatives ≠ []) (himp : 1 ≤ total_impressions) (hrun : 1 ≤ num_runs)
    (hpos : ∀ r j p, 0 ≤ samples r j p) :
    ∃ agg, aggregate creatives samples rB rA total_impressions num_runs = .ok agg ∧
      agg.mean_bandit_clicks_hist.getLast? = some agg.avg_total_bandit_clicks ∧
      agg.mean_ab_clicks_hist.getLast? = some agg.avg_total_ab_clicks ∧
      0 ≤ agg.avg_total_ab_clicks ∧
      (0 < agg.avg_total_ab_clicks →
        agg.uplift_percentage =
          (agg.avg_total_bandit_clicks - agg.avg_total_ab_clicks) /
            agg.avg_total_ab_clicks * 100) ∧
      (agg.avg_total_ab_clicks = 0 → agg.uplift_percentage = 0) ∧
      agg.avg_bandit_ctr = agg.avg_total_bandit_clicks / (total_impressions : ℚ) ∧
      agg.avg_ab_ctr = agg.avg_total_ab_clicks / (total_impressions : ℚ) := by
  obtain ⟨results, hruns, hlen, hprop⟩ := runsLoop_ok creatives samples rB rA
    total_impressions hne hpos num_runs 0
  cases results with
  | nil =>
    rw [List.length_nil] at hlen
    omega
  | cons r1 rest =>
    have hr1 := hprop r1 (List.mem_cons_self r1 rest)
    have hmbl : (meanSeries ((r1 :: rest).map fun res => res.bandit_history)).length =
        total_impressions := by
      rw [List.map_cons, meanSeries_length, hr1.1]
    have hmal : (meanSeries ((r1 :: rest).map fun res => res.ab_history)).length =
        total_impressions := by
      rw [List.map_cons, meanSeries_length, hr1.2]
    obtain ⟨avgB, hB⟩ := getLast?_some_of_ne_nil
      (meanSeries ((r1 :: rest).map fun res => res.bandit_history)) (by
        intro h
        rw [h, List.length_nil] at hmbl
        omega)
    obtain ⟨avgA, hA⟩ := getLast?_some_of_ne_nil
      (meanSeries ((r1 :: rest).map fun res => res.ab_history)) (by
        intro h
        rw [h, List.length_nil] at hmal
        omega)
    have hAnn : 0 ≤ avgA := by
      obtain ⟨hne5, heq5⟩ := List.mem_getLast?_eq_getLast
        (show avgA ∈ (meanSeries ((r1 :: rest).map fun res => res.ab_history)).getLast?
          from hA)
      exact meanSeries_nonneg _ avgA (heq5 ▸ List.getLast_mem hne5)
    refine ⟨_, aggregate_eq_ok creatives samples rB rA total_impressions num_runs
      (r1 :: rest) avgB avgA hruns hB hA, hB, hA, hAnn, ?_, ?_, rfl, rfl⟩
    · intro h
      have h2 : 0 < avgA := h
      show (if 0 < avgA then (avgB - avgA) / avgA * 100 else 0) =
        (avgB - avgA) / avgA * 100
      rw [if_pos h2]
    · intro h
      have h2 : avgA = 0 := h
      show (if 0 < avgA then (avgB - avgA) / avgA * 100 else 0) = 0
      rw [h2]
      norm_num

theorem aggregate_uplift_ctr_spec_witness :
    ∃ agg, aggregate appCreatives (fun _ _ _ => 1/2) (fun _ _ => false) (fun _ _ => true)
        1 1 = .ok agg ∧
      agg.mean_bandit_clicks_hist.getLast? = some agg.avg_total_bandit_clicks ∧
      agg.mean_ab_clicks_hist.getLast? = some agg.avg_total_ab_clicks ∧
      0 ≤ agg.avg_total_ab_clicks ∧
      (0 < agg.avg_total_ab_clicks →
        agg.uplift_percentage =
          (agg.avg_total_bandit_clicks - agg.avg_total_ab_clicks) /
            agg.avg_total_ab_clicks * 100) ∧
      (agg.avg_total_ab_clicks = 0 → agg.uplift_percentage = 0) ∧
      agg.avg_bandit_ctr = agg.avg_total_bandit_clicks / ((1 : ℕ) : ℚ) ∧
      agg.avg_ab_ctr = agg.avg_total_ab_clicks / ((1 : ℕ) : ℚ) :=
  aggregate_uplift_ctr_spec appCreatives (fun _ _ _ => 1/2) (fun _ _ => false)
    (fun _ _ => true) 1 1 (by decide) (by omega) (by omega) (fun r j p => by norm_num)

/-- C1 counterexample: `aggregate` called with `impressions = 1000` and
`num_runs = 0` on the app's creative config does not signal a
ConfigurationError before (or instead of) running: it fails with the
IndexError of reading `[-1]` from the empty mean series. -/
theorem aggregate_zero_runs_cex :
    aggregate appCreatives (fun _ _ _ => 1/2) (fun _ _ => false) (fun _ _ => false) 1000 0 =
      .error .indexError ∧
    (Except.error .indexError : Except SimError AggregateResult) ≠
      .error .configurationError := by
  refine ⟨rfl, fun h => ?_⟩
  have h2 : SimError.indexError = SimError.configurationError := Except.error.inj h
  exact absurd h2 (by decide)

/-- C1 amended: the aggregation block performs no input validation and the
code defines no ConfigurationError; called with `num_runs = 0` (any
impression count, creative config and oracles) the run loop executes zero
simulation runs and the computation then fails with an IndexError when
reading the last element of the empty mean series, returning no result. -/
theorem aggregate_zero_runs_index_error (creatives : List AdCreative)
    (samples : ℕ → ℕ → ℕ → ℚ) (rB rA : ℕ → ℕ → Bool) (total_impressions : ℕ) :
    aggregate creatives samples rB rA total_impressions 0 = .error .indexError := rfl

end AdCampaign
